import Mathlib

/-!
Verification of the K-line ingestion and staleness-driven batch refresh
subsystem of `kfilter-ts` (`packages/api/src/routers/stock.ts`), shallowly
embedded in Lean 4.

Modelling conventions:
* JS `Date` timestamps are naturals counting milliseconds; a calendar day is
  the natural `t / 86400000`, and "midnight of day `d`" is `d * 86400000`
  (mirroring `setHours(0,0,0,0)` / `new Date(y,m,d)` on a day-granularity
  reading).
* Bar dates (`KLineData.date`, a `YYYY-MM-DD` string in the source) are
  naturals counting days; distinct days are distinct strings, so Map keying
  by the string is keying by the day.
* The mutable module-level `batchUpdateStatus` singleton and the database are
  passed explicitly; the concurrent worker pool is a step relation.
* The trading-calendar functions operate on a civil-date record carrying
  year / month / day-of-month / day-of-week, with the day stepping of
  `setDate(getDate() ± 1)` made explicit.
-/

/-- One daily price bar, as stored in `stockInfo.daily`
(`KLineData` in `packages/db/src/schema/stock.ts`); the `date` string is
modelled as a day number. -/
structure KLineData where
  date : Nat
  openPrice : Int
  close : Int
  high : Int
  low : Int
  amount : Int
  deriving DecidableEq, Repr

/- ===================== C3: staleness rule ===================== -/

/-- Milliseconds in a calendar day. -/
def dayMs : Nat := 86400000

/-- The staleness rule shared by both refresh paths (`stock.ts` lines
173–177 and 618–622): due when never refreshed, or when the stored
timestamp is before midnight of the target day
(`new Date(existing.updatedAt) < queryDate` with `queryDate` truncated to
midnight by the caller). -/
def dueForRefresh (lastRefreshedAt : Option Nat) (targetDay : Nat) : Bool :=
  match lastRefreshedAt with
  | none => true
  | some u => decide (u < targetDay * dayMs)

/-- One row of the `stockInfo` table, as read by the router.  `updatedAt` is
kept optional because the code guards `!stock.updatedAt` before comparing. -/
structure StockInfoRow where
  symbol : String
  name : String
  info : Option String
  daily : Option (List KLineData)
  weekly : Option (List KLineData)
  monthly : Option (List KLineData)
  updatedAt : Option Nat
  createdAt : Nat
  deriving DecidableEq, Repr

/-- The batch path's due filter (`stock.ts` lines 173–177):
`!existing || !existing.updatedAt || new Date(existing.updatedAt) < queryDate`. -/
def needsUpdateFilter (existing : Option StockInfoRow) (queryDay : Nat) : Bool :=
  match existing with
  | none => true
  | some e =>
    match e.updatedAt with
    | none => true
    | some u => decide (u < queryDay * dayMs)

/-- The single-symbol path's update test (`stock.ts` lines 618–622):
`forceUpdate || !stock || !stock.updatedAt || new Date(stock.updatedAt) < today`,
with `today` the midnight of day `todayDay`. -/
def singleNeedsUpdate (forceUpdate : Bool) (stored : Option StockInfoRow)
    (todayDay : Nat) : Bool :=
  forceUpdate || stored.isNone ||
    (match stored with
     | none => true
     | some st =>
       match st.updatedAt with
       | none => true
       | some u => decide (u < todayDay * dayMs))

/- ===================== C4: adjustment-variant selection ===================== -/

/-- The requested price-adjustment variant (`"" | "qfq" | "hfq"` in the
source). -/
inductive Adjust where
  | raw
  | qfq
  | hfq
  deriving DecidableEq, Repr

/-- The per-symbol object nested in the provider payload: up to three bars
arrays keyed `{adjustment-prefix}{periodKey}` (for daily:
`day` / `qfqday` / `hfqday`).  `some []` models a present-but-empty array
(truthy in JS); `none` models an absent key. -/
structure QQData (β : Type) where
  day : Option (List β)
  qfqday : Option (List β)
  hfqday : Option (List β)
  deriving DecidableEq, Repr

/-- First present (non-`none`) candidate, or `[]` — the shape of
`["qfqday", "hfqday", "day"].find((k) => dataJson[k])` followed by
`rawData = dataJson[key]`. -/
def firstPresent {β : Type} : List (Option (List β)) → List β
  | [] => []
  | some v :: _ => v
  | none :: rest => firstPresent rest

/-- Daily-path variant selection, the exact if-chain of `stock.ts` lines
321–332. -/
def selectDaily {β : Type} (adjust : Adjust) (d : QQData β) : List β :=
  if adjust = Adjust.hfq ∧ d.hfqday.isSome then d.hfqday.getD []
  else if adjust = Adjust.qfq ∧ d.qfqday.isSome then d.qfqday.getD []
  else if d.day.isSome then d.day.getD []
  else firstPresent [d.qfqday, d.hfqday, d.day]

/-- The key named by the requested adjustment. -/
def requestedKey {β : Type} (adjust : Adjust) (d : QQData β) : Option (List β) :=
  match adjust with
  | Adjust.raw => d.day
  | Adjust.qfq => d.qfqday
  | Adjust.hfq => d.hfqday

/-- Weekly/monthly-path variant selection (`stock.ts` lines 390–396):
requested key first, else the first present of `qfq…`, `hfq…`, raw. -/
def selectPeriod {β : Type} (adjust : Adjust) (d : QQData β) : List β :=
  match requestedKey adjust d with
  | some v => v
  | none => firstPresent [d.qfqday, d.hfqday, d.day]

/-- Selection as the specification words it (§4.2): the requested
adjustment's key when present, otherwise the first present key in the order
forward-adjusted, backward-adjusted, raw. -/
def specSelect {β : Type} (adjust : Adjust) (d : QQData β) : List β :=
  match requestedKey adjust d with
  | some v => v
  | none => firstPresent [d.qfqday, d.hfqday, d.day]

/-- The candidate order the daily path actually realises: the requested key,
then — for an adjusted request — the raw `day` key before the remaining
adjusted variant. -/
def dailyCandidates {β : Type} (adjust : Adjust) (d : QQData β) :
    List (Option (List β)) :=
  match adjust with
  | Adjust.raw => [d.day, d.qfqday, d.hfqday]
  | Adjust.qfq => [d.qfqday, d.day, d.hfqday]
  | Adjust.hfq => [d.hfqday, d.day, d.qfqday]

/- ===================== C5: deduplicate and filter ===================== -/

/-- One `Map.set` step of
`new Map(allData.map((d) => [d.date, d]))` (`stock.ts` line 353): an
already-present date has its value replaced in place, a new date is
appended. -/
def upsertBar (acc : List KLineData) (b : KLineData) : List KLineData :=
  if acc.any (fun x => x.date == b.date) then
    acc.map (fun x => if x.date == b.date then b else x)
  else acc ++ [b]

/-- `Array.from(new Map(allData.map((d) => [d.date, d])).values())`: one bar
per date, the last occurrence winning, in first-occurrence key order. -/
def dedupLast (l : List KLineData) : List KLineData :=
  l.foldl upsertBar []

/-- Dedup then inclusive date-range filter (`stock.ts` lines 352–360:
`dt >= startDt && dt <= endDt`). -/
def deduplicateAndFilter (l : List KLineData) (startDay endDay : Nat) :
    List KLineData :=
  (dedupLast l).filter (fun b => decide (startDay ≤ b.date) && decide (b.date ≤ endDay))

/-- The last bar of a given date in input order, if any. -/
def lastWithDate (l : List KLineData) (d : Nat) : Option KLineData :=
  (l.filter (fun x => x.date == d)).getLast?

/-- The dates of a list of bars, in order. -/
def barDates (l : List KLineData) : List Nat :=
  l.map (fun b => b.date)

/- ===================== C6: year-chunked daily fetch ===================== -/

/-- One HTTP request of the daily loop (`stock.ts` lines 299–307): the year
substituted into `_var`, and the `param` window bounds as
(year, month, day) triples. -/
structure YearRequest where
  varYear : Nat
  startParam : Nat × Nat × Nat
  endParam : Nat × Nat × Nat
  deriving DecidableEq, Repr

/-- The years the daily loop iterates
(`for (year = rangeStart; year < rangeEnd; year++)` with
`rangeEnd = min(endYear, currentYear) + 1`). -/
def fetchYears (startYear endYear currentYear : Nat) : List Nat :=
  List.range' startYear (min endYear currentYear + 1 - startYear)

/-- The loop body over a year list: one request per year with the
`{year}-01-01` … `{year+1}-12-31` window; the oracle yields the decoded
bars of that year's response, or `none` when the request, payload
extraction, or JSON decode fails — in which case the year contributes
nothing and the loop continues (`continue` in both `catch` and the
missing-marker / missing-symbol paths). -/
def runYears (oracle : Nat → Option (List KLineData)) :
    List Nat → List YearRequest × List KLineData
  | [] => ([], [])
  | y :: ys =>
    let rest := runYears oracle ys
    (⟨y, (y, 1, 1), (y + 1, 12, 31)⟩ :: rest.1, ((oracle y).getD []) ++ rest.2)

/-- The daily branch of `fetchKLineFromQQ` (`stock.ts` lines 291–360):
year-chunked accumulation followed by dedup and filtering against the
originally requested day range.  Total — per-year failures are absorbed by
the oracle's `none`, so the function never throws. -/
def fetchKLineFromQQDaily (oracle : Nat → Option (List KLineData))
    (startYear endYear currentYear startDay endDay : Nat) : List KLineData :=
  deduplicateAndFilter (runYears oracle (fetchYears startYear endYear currentYear)).2
    startDay endDay

/- ===================== C7: payload extraction ===================== -/

/-- The character `=` (code 61). -/
def eqChar : Char := Char.ofNat 61

/-- The left-brace character (code 123). -/
def lbraceChar : Char := Char.ofNat 123

/-- The semicolon character (code 59). -/
def semiChar : Char := Char.ofNat 59

/-- `text.indexOf("={")` followed by `text.slice(idx + 1)`: the suffix
starting at the `\x7b` of the first `=\x7b` marker, or `none` when the
marker is absent. -/
def afterMarker : List Char → Option (List Char)
  | [] => none
  | c :: rest =>
    match rest with
    | [] => none
    | c2 :: _ =>
      if c = eqChar ∧ c2 = lbraceChar then some rest else afterMarker rest

/-- JS `String.prototype.trim`: strip whitespace from both ends. -/
def jsTrim (l : List Char) : List Char :=
  ((l.dropWhile Char.isWhitespace).reverse.dropWhile Char.isWhitespace).reverse

/-- `replace(/;$/, "")`: drop a single trailing semicolon. -/
def stripTrailingSemi (l : List Char) : List Char :=
  match l.getLast? with
  | some c => if c = semiChar then l.dropLast else l
  | none => l

/-- The payload-extraction pipeline of `stock.ts` lines 313–316 / 374–377:
`text.slice(text.indexOf("={") + 1).trim().replace(/;$/, "")`, or `none`
(`MalformedPayload`) when the `=\x7b` marker is absent. -/
def extractPayload (s : String) : Option String :=
  (afterMarker s.data).map (fun cs => String.mk (stripTrailingSemi (jsTrim cs)))

/- ===================== C2 / C10: trigger gate and status ===================== -/

/-- The module-level `batchUpdateStatus` singleton. -/
structure BatchStatus where
  isRunning : Bool
  total : Nat
  completed : Nat
  failed : Nat
  startTime : Option Nat
  deriving DecidableEq, Repr

/-- Entry of `batchUpdateAllStocksKLine` (`stock.ts` lines 147–191), up to
the point where the job counters are initialised: a no-op when already
running or when the due list is empty; otherwise resets the counters and
raises `isRunning`.  Returns the new status and whether a job was started. -/
def batchUpdateStart (st : BatchStatus) (dueCount : Nat) (now : Nat) :
    BatchStatus × Bool :=
  if st.isRunning then (st, false)
  else if dueCount = 0 then (st, false)
  else (⟨true, dueCount, 0, 0, some now⟩, true)

/-- The `orderBy(stockInfo.updatedAt).limit(1)` query of
`checkAndUpdateKLine`: the head of the ascending sort of the stored
`updatedAt` values. -/
def minUpdatedAt (store : List Nat) : Option Nat :=
  (List.insertionSort (· ≤ ·) store).head?

/-- Result shape of the `checkAndUpdateKLine` mutation. -/
structure CheckResult where
  triggered : Bool
  status : BatchStatus
  deriving DecidableEq, Repr

/-- `checkAndUpdateKLine` (`stock.ts` lines 532–573): no-op when a batch is
running; otherwise launches the background batch iff the `stockInfo` table
is empty or the queried `updatedAt` is strictly before midnight of the
target data date. -/
def checkAndUpdateKLine (st : BatchStatus) (store : List Nat) (dataDateDay : Nat) :
    CheckResult :=
  if st.isRunning then ⟨false, st⟩
  else
    match minUpdatedAt store with
    | none => ⟨true, st⟩
    | some m => if m < dataDateDay * dayMs then ⟨true, st⟩ else ⟨false, st⟩

/- ===================== C1: worker pool as a step relation ===================== -/

/-- The in-flight state of a running batch job: the shared queue
(`const queue = [...needsUpdateList]`), the number of items popped but not
yet finished, the two counters, and the `isRunning` flag. -/
structure JobState (α : Type) where
  pending : List α
  inFlight : Nat
  completed : Nat
  failed : Nat
  isRunning : Bool
  deriving DecidableEq, Repr

/-- One observable step of the worker pool (`stock.ts` lines 199–252).
`pop` is a worker's atomic `queue.shift()`; `finishOk` is the success path
(`batchUpdateStatus.completed++` after the upsert); `finishFail` is the
`catch` path (`batchUpdateStatus.failed++`, the worker then continues);
`drain` is the `Promise.all` returning with the queue empty and no worker
mid-item, upon which `batchUpdateStatus.isRunning = false`. -/
inductive JobStep {α : Type} : JobState α → JobState α → Prop
  | pop (w : α) (rest : List α) (s : JobState α) :
      s.pending = w :: rest → s.isRunning = true →
      JobStep s ⟨rest, s.inFlight + 1, s.completed, s.failed, true⟩
  | finishOk (s : JobState α) (n : Nat) :
      s.inFlight = n + 1 → s.isRunning = true →
      JobStep s ⟨s.pending, n, s.completed + 1, s.failed, true⟩
  | finishFail (s : JobState α) (n : Nat) :
      s.inFlight = n + 1 → s.isRunning = true →
      JobStep s ⟨s.pending, n, s.completed, s.failed + 1, true⟩
  | drain (s : JobState α) :
      s.pending = [] → s.inFlight = 0 → s.isRunning = true →
      JobStep s ⟨[], 0, s.completed, s.failed, false⟩

/-- The job state set up at lines 185–197: the due-set seeds the queue,
counters start at zero, the flag is raised. -/
def initJob {α : Type} (items : List α) : JobState α :=
  ⟨items, 0, 0, 0, true⟩

/- ===================== C8: single-symbol cache path ===================== -/

/-- The side effects of one `getStockKLine` call: the upstream fetch and
the database write, in program order. -/
inductive FetchEffect where
  | fetchQQ (symbol : String)
  | dbUpdate (symbol : String)
  | dbInsert (symbol : String)
  deriving DecidableEq, Repr

/-- The query response: the row-shaped payload plus the `fromCache` flag. -/
structure KLineResponse where
  row : StockInfoRow
  fromCache : Bool
  deriving DecidableEq, Repr

/-- JS `a || b` on strings: an empty string is falsy. -/
def jsStrOr (a b : Option String) : Option String :=
  match a with
  | some s => if s = "" then b else some s
  | none => b

/-- `getStockKLine` (`stock.ts` lines 595–677): returns the cached row with
`fromCache: true` and performs no effect when no update is needed;
otherwise fetches daily bars, upserts (update when the row exists, insert
otherwise) and returns the fresh payload.  Result: the response, the row as
stored after the call, and the effect list. -/
def getStockKLine (symbol : String) (name : Option String) (forceUpdate : Bool)
    (stored : Option StockInfoRow) (todayDay nowMs : Nat)
    (fetchedDaily : List KLineData) :
    KLineResponse × Option StockInfoRow × List FetchEffect :=
  match stored with
  | some st =>
    if singleNeedsUpdate forceUpdate (some st) todayDay then
      let stockName := (jsStrOr name (jsStrOr (some st.name) (some symbol))).getD symbol
      let newRow : StockInfoRow :=
        { st with name := stockName, daily := some fetchedDaily, updatedAt := some nowMs }
      (⟨{ symbol := symbol, name := stockName, info := st.info,
          daily := some fetchedDaily, weekly := st.weekly, monthly := st.monthly,
          updatedAt := some nowMs, createdAt := st.createdAt }, false⟩,
        some newRow, [FetchEffect.fetchQQ symbol, FetchEffect.dbUpdate symbol])
    else (⟨st, true⟩, some st, [])
  | none =>
    let stockName := (jsStrOr name (some symbol)).getD symbol
    let newRow : StockInfoRow :=
      ⟨symbol, stockName, none, some fetchedDaily, none, none, some nowMs, nowMs⟩
    (⟨newRow, false⟩, some newRow,
      [FetchEffect.fetchQQ symbol, FetchEffect.dbInsert symbol])

/- ===================== C9: trading calendar ===================== -/

/-- Gregorian leap year, as JS `Date` implements the proleptic calendar. -/
def isLeapYear (y : Int) : Bool :=
  (y % 4 == 0 && y % 100 != 0) || y % 400 == 0

/-- Days in month `m` (1–12) of year `y`. -/
def daysInMonth (y : Int) (m : Nat) : Nat :=
  if m = 2 then (if isLeapYear y then 29 else 28)
  else if m = 4 ∨ m = 6 ∨ m = 9 ∨ m = 11 then 30
  else 31

/-- A civil date as JS `Date` exposes it to `isHoliday`: year,
month (1–12, `getMonth() + 1`), day of month (`getDate()`), and day of week
(`getDay()`, 0 = Sunday … 6 = Saturday).  JS derives the weekday from the
timestamp; here it is carried explicitly and rotated by the one-day steps,
which is the same relation `setDate` maintains. -/
structure CalDate where
  year : Int
  month : Nat
  day : Nat
  dow : Nat
  deriving DecidableEq, Repr

/-- The states a JS `Date` can actually be in. -/
def ValidDate (d : CalDate) : Prop :=
  1 ≤ d.month ∧ d.month ≤ 12 ∧ 1 ≤ d.day ∧
    d.day ≤ daysInMonth d.year d.month ∧ d.dow < 7

instance (d : CalDate) : Decidable (ValidDate d) := by
  unfold ValidDate
  infer_instance

/-- `date.setDate(date.getDate() - 1)`: step one civil day backward. -/
def prevDay (d : CalDate) : CalDate :=
  if 1 < d.day then ⟨d.year, d.month, d.day - 1, (d.dow + 6) % 7⟩
  else if 1 < d.month then
    ⟨d.year, d.month - 1, daysInMonth d.year (d.month - 1), (d.dow + 6) % 7⟩
  else ⟨d.year - 1, 12, 31, (d.dow + 6) % 7⟩

/-- `date.setDate(date.getDate() + 1)`: step one civil day forward. -/
def nextDay (d : CalDate) : CalDate :=
  if d.day < daysInMonth d.year d.month then
    ⟨d.year, d.month, d.day + 1, (d.dow + 1) % 7⟩
  else if d.month < 12 then ⟨d.year, d.month + 1, 1, (d.dow + 1) % 7⟩
  else ⟨d.year + 1, 1, 1, (d.dow + 1) % 7⟩

/-- `isHoliday` (`stock.ts` lines 17–35): weekends (Sunday 0, Saturday 6)
and the fixed dates Jan 1, May 1, Oct 1. -/
def isHoliday (d : CalDate) : Bool :=
  d.dow == 0 || d.dow == 6 ||
    (d.month == 1 && d.day == 1) ||
    (d.month == 5 && d.day == 1) ||
    (d.month == 10 && d.day == 1)

/-- The `while (isHoliday(date))` loop, stepping by `step`.  The source loop
is unbounded; it is modelled with fuel, and `skipPrev_not_holiday` /
`skipNext_not_holiday` prove the fuel is never exhausted (three iterations
always suffice), so the fueled function agrees with the loop. -/
def skipHolidays (f : Nat) (step : CalDate → CalDate) (d : CalDate) : CalDate :=
  match f with
  | 0 => d
  | Nat.succ f => if isHoliday d then skipHolidays f step (step d) else d

/-- `getPrevTradingDay` (`stock.ts` lines 38–46): step back one day, then
skip non-trading days backward. -/
def getPrevTradingDay (d : CalDate) : CalDate :=
  skipHolidays 1000 prevDay (prevDay d)

/-- `getNextTradingDay` (`stock.ts` lines 49–57). -/
def getNextTradingDay (d : CalDate) : CalDate :=
  skipHolidays 1000 nextDay (nextDay d)

/-- Chronological order on civil dates. -/
def calLt (a b : CalDate) : Prop :=
  a.year < b.year ∨ (a.year = b.year ∧
    (a.month < b.month ∨ (a.month = b.month ∧ a.day < b.day)))

/- ===================== Theorems ===================== -/

/-- C3: the staleness rule truncates to day granularity — a stored timestamp
is due for target day `t` iff its calendar day is strictly before `t`; a
never-refreshed symbol is always due; the batch filter and the
single-symbol test (with `forceUpdate` unset) are the same rule; and at the
boundary, a symbol refreshed at 2024-06-01T23:59:59 (day 19875 of the epoch)
is due for 2024-06-02 but not for 2024-06-01. -/
theorem dueForRefresh_day_truncation :
    (∀ u t : Nat, (dueForRefresh (some u) t = true ↔ u / dayMs < t)) ∧
    (∀ t : Nat, dueForRefresh none t = true) ∧
    (∀ (row : Option StockInfoRow) (t : Nat),
      needsUpdateFilter row t = dueForRefresh (row.bind (fun r => r.updatedAt)) t ∧
      singleNeedsUpdate false row t = dueForRefresh (row.bind (fun r => r.updatedAt)) t) ∧
    dueForRefresh (some (19875 * dayMs + 86399000)) 19876 = true ∧
    dueForRefresh (some (19875 * dayMs + 86399000)) 19875 = false := by
  refine ⟨?_, ?_, ?_, ?_, ?_⟩
  · intro u t
    simp only [dueForRefresh, decide_eq_true_eq]
    exact (Nat.div_lt_iff_lt_mul (by norm_num [dayMs])).symm
  · intro t; rfl
  · rintro (_ | row) t
    · exact ⟨rfl, rfl⟩
    · rcases h : row.updatedAt with _ | u <;>
        simp [needsUpdateFilter, singleNeedsUpdate, dueForRefresh, h]
  · decide
  · decide

/-- C4 counterexample: in the daily path, a backward-adjusted (`hfq`)
request whose `hfqday` key is absent falls back to the raw `day` key even
though `qfqday` is present, while the claimed order (forward-adjusted,
backward-adjusted, raw — as the weekly/monthly path implements it) would
pick `qfqday`. -/
theorem selectDaily_ne_specSelect :
    selectDaily Adjust.hfq
        (⟨some [(0 : Nat)], some [1], none⟩ : QQData Nat) ≠
      specSelect Adjust.hfq (⟨some [(0 : Nat)], some [1], none⟩ : QQData Nat) := by
  decide

/-- C4 (amended): the weekly/monthly path selects exactly as the claim
states (requested key, else forward-adjusted, backward-adjusted, raw); the
daily path selects the first present key of the order: requested key, then
— when an adjusted variant was requested — the raw `day` key before the
remaining adjusted variant. -/
theorem select_fallback_order {β : Type} (adjust : Adjust) (d : QQData β) :
    selectPeriod adjust d = specSelect adjust d ∧
    selectDaily adjust d = firstPresent (dailyCandidates adjust d) := by
  refine ⟨rfl, ?_⟩
  cases adjust <;> rcases d with ⟨_ | dday, _ | dqfq, _ | dhfq⟩ <;>
    simp [selectDaily, dailyCandidates, firstPresent]

/-- C2: whenever a batch job is marked running, both trigger sites are
no-ops — `checkAndUpdateKLine` reports `triggered = false` and returns the
status unchanged, and `batchUpdateAllStocksKLine` returns without starting a
job or touching the counters. -/
theorem trigger_noop_when_running (st : BatchStatus) (store : List Nat)
    (t dueCount now : Nat) (h : st.isRunning = true) :
    checkAndUpdateKLine st store t = ⟨false, st⟩ ∧
    batchUpdateStart st dueCount now = (st, false) := by
  constructor
  · simp [checkAndUpdateKLine, h]
  · simp [batchUpdateStart, h]

/-- C2 witness at a concrete running status. -/
theorem trigger_noop_when_running_witness :
    checkAndUpdateKLine ⟨true, 5, 2, 1, some 7⟩ [3, 9] 20000 =
        ⟨false, ⟨true, 5, 2, 1, some 7⟩⟩ ∧
      batchUpdateStart ⟨true, 5, 2, 1, some 7⟩ 4 11 = (⟨true, 5, 2, 1, some 7⟩, false) :=
  trigger_noop_when_running ⟨true, 5, 2, 1, some 7⟩ [3, 9] 20000 4 11 rfl

/-- C10: with no job running, `checkAndUpdateKLine` launches the batch iff
the `stockInfo` table is empty or the queried timestamp is strictly before
midnight of the target data date; and the queried row — the first row
ordered ascending by `updatedAt`, despite being named `latestStock` — is the
minimum stored `updatedAt`. -/
theorem checkAndUpdate_gate (st : BatchStatus) (store : List Nat) (t : Nat)
    (h : st.isRunning = false) :
    ((checkAndUpdateKLine st store t).triggered = true ↔
      store = [] ∨ ∃ m, minUpdatedAt store = some m ∧ m < t * dayMs) ∧
    (∀ m, minUpdatedAt store = some m → m ∈ store ∧ ∀ x ∈ store, m ≤ x) := by
  constructor
  · rcases hm : minUpdatedAt store with _ | m
    · have hnil : store = [] := by
        have hp := List.perm_insertionSort (· ≤ ·) store
        rcases hs : List.insertionSort (· ≤ ·) store with _ | ⟨a, l⟩
        · rw [hs] at hp
          exact (List.Perm.nil_eq hp).symm
        · simp [minUpdatedAt, hs] at hm
      subst hnil
      simp [checkAndUpdateKLine, h, minUpdatedAt, List.insertionSort]
    · have hne : store ≠ [] := by
        intro hnil
        rw [hnil] at hm
        simp [minUpdatedAt, List.insertionSort] at hm
      by_cases hlt : m < t * dayMs
      · simp only [checkAndUpdateKLine, h, Bool.false_eq_true, if_false, hm, hlt, if_true]
        simp only [true_iff]
        exact Or.inr ⟨m, rfl, hlt⟩
      · simp only [checkAndUpdateKLine, h, Bool.false_eq_true, if_false, hm, hlt, if_false]
        simp only [false_iff]
        rintro (hnil | ⟨m', hm', hlt'⟩)
        · exact hne hnil
        · injection hm' with hmm
          exact hlt (by rw [hmm]; exact hlt')
  · intro m hm
    have hperm := List.perm_insertionSort (· ≤ ·) store
    have hsorted := List.sorted_insertionSort (· ≤ ·) store
    rcases hs : List.insertionSort (· ≤ ·) store with _ | ⟨a, l⟩
    · simp [minUpdatedAt, hs] at hm
    · have ha : a = m := by
        simp [minUpdatedAt, hs] at hm
        exact hm
      rw [hs] at hperm hsorted
      constructor
      · exact hperm.mem_iff.mp (ha ▸ List.mem_cons_self a l)
      · intro x hx
        have hx' : x ∈ a :: l := hperm.mem_iff.mpr hx
        rcases List.mem_cons.mp hx' with hxa | hxl
        · exact le_of_eq (ha ▸ hxa.symm)
        · exact ha ▸ (List.sorted_cons.mp hsorted).1 x hxl

/-- C10 witness: with store `[100, 50, 200]` and target day 1
(midnight 86400000), the minimum 50 is stale, so the batch is launched. -/
theorem checkAndUpdate_gate_witness :
    ((checkAndUpdateKLine ⟨false, 0, 0, 0, none⟩ [100, 50, 200] 1).triggered = true ↔
      [100, 50, 200] = ([] : List Nat) ∨
        ∃ m, minUpdatedAt [100, 50, 200] = some m ∧ m < 1 * dayMs) ∧
    (∀ m, minUpdatedAt [100, 50, 200] = some m →
      m ∈ [100, 50, 200] ∧ ∀ x ∈ [100, 50, 200], m ≤ x) :=
  checkAndUpdate_gate ⟨false, 0, 0, 0, none⟩ [100, 50, 200] 1 rfl

/-- When the inserted bar's date is already present, the date list is
unchanged (the value is replaced in place). -/
theorem barDates_upsertBar_present (acc : List KLineData) (b : KLineData)
    (h : acc.any (fun x => x.date == b.date) = true) :
    barDates (upsertBar acc b) = barDates acc := by
  simp only [upsertBar, h, if_true, barDates, List.map_map]
  exact List.map_congr_left (fun x _ => by
    by_cases hxb : x.date = b.date <;> simp [Function.comp, hxb])

/-- Dates after an upsert: the old dates plus possibly the new one. -/
theorem mem_barDates_upsertBar (acc : List KLineData) (b : KLineData) (d : Nat) :
    d ∈ barDates (upsertBar acc b) ↔ d ∈ barDates acc ∨ d = b.date := by
  by_cases hpres : acc.any (fun x => x.date == b.date) = true
  · rw [barDates_upsertBar_present acc b hpres]
    constructor
    · exact Or.inl
    · rintro (hmem | rfl)
      · exact hmem
      · obtain ⟨x, hx, hdx⟩ := List.any_eq_true.mp hpres
        exact List.mem_map.mpr ⟨x, hx, beq_iff_eq.mp hdx⟩
  · unfold upsertBar
    rw [if_neg hpres]
    simp only [barDates, List.map_append, List.map_cons,
      List.map_nil, List.mem_append, List.mem_cons, List.not_mem_nil, or_false]

/-- Upserting preserves date distinctness. -/
theorem upsertBar_nodup (acc : List KLineData) (b : KLineData)
    (h : (barDates acc).Nodup) : (barDates (upsertBar acc b)).Nodup := by
  by_cases hpres : acc.any (fun x => x.date == b.date) = true
  · rw [barDates_upsertBar_present acc b hpres]; exact h
  · have hnot : b.date ∉ barDates acc := by
      intro hmem
      rcases List.mem_map.mp hmem with ⟨x, hx, hxd⟩
      exact hpres (List.any_eq_true.mpr ⟨x, hx, beq_iff_eq.mpr hxd⟩)
    unfold upsertBar
    rw [if_neg hpres]
    simp only [barDates, List.map_append, List.map_cons, List.map_nil]
    rw [List.nodup_append]
    refine ⟨h, List.nodup_singleton _, ?_⟩
    intro a ha hb
    rw [List.mem_singleton] at hb
    exact hnot (hb ▸ ha)

/-- In a list with pairwise-distinct dates, filtering by a member's date
yields exactly that member. -/
theorem filter_eq_singleton_of_nodup (acc : List KLineData) (x₀ : KLineData)
    (h : (barDates acc).Nodup) (hx : x₀ ∈ acc) :
    acc.filter (fun x => x.date == x₀.date) = [x₀] := by
  induction acc with
  | nil => cases hx
  | cons y ys ih =>
    simp only [barDates, List.map_cons] at h
    rcases List.nodup_cons.mp h with ⟨h1, h2⟩
    rcases List.mem_cons.mp hx with rfl | hmem
    · have hnil : ys.filter (fun x => x.date == x₀.date) = [] :=
        List.filter_eq_nil_iff.mpr (fun a ha => by
          simp only [beq_iff_eq]
          intro hEq
          exact h1 (hEq ▸ List.mem_map.mpr ⟨a, ha, rfl⟩))
      simp [List.filter_cons, hnil]
    · have hne : (y.date == x₀.date) = false := by
        rw [Bool.eq_false_iff]
        intro hEq
        exact h1 (beq_iff_eq.mp hEq ▸ List.mem_map.mpr ⟨x₀, hmem, rfl⟩)
      rw [List.filter_cons, hne]
      exact ih h2 hmem

/-- Filtering an upsert by date: the inserted bar's date selects exactly the
new bar; any other date is untouched. -/
theorem upsertBar_filter (acc : List KLineData) (b : KLineData) (d : Nat)
    (h : (barDates acc).Nodup) :
    (upsertBar acc b).filter (fun x => x.date == d) =
      if d = b.date then [b] else acc.filter (fun x => x.date == d) := by
  by_cases hpres : acc.any (fun x => x.date == b.date) = true
  · obtain ⟨x₀, hx₀, hdx₀⟩ := List.any_eq_true.mp hpres
    have hx₀d : x₀.date = b.date := beq_iff_eq.mp hdx₀
    simp only [upsertBar, hpres, if_true]
    rw [List.filter_map]
    by_cases hd : d = b.date
    · subst hd
      have hcong : acc.filter
            ((fun x => x.date == b.date) ∘ fun x => if x.date == b.date then b else x) =
          acc.filter (fun x => x.date == x₀.date) := by
        apply List.filter_congr
        intro x _
        by_cases hxb : x.date = b.date <;> simp [Function.comp, hxb, hx₀d]
      rw [hcong, filter_eq_singleton_of_nodup acc x₀ h hx₀]
      simp [hx₀d]
    · have hcong : acc.filter
            ((fun x => x.date == d) ∘ fun x => if x.date == b.date then b else x) =
          acc.filter (fun x => x.date == d) := by
        apply List.filter_congr
        intro x _
        by_cases hxb : x.date = b.date
        · simp only [Function.comp, hxb, beq_self_eq_true, if_true]
        · simp [Function.comp, hxb]
      rw [hcong, if_neg hd]
      have hid : ∀ x ∈ acc.filter (fun x => x.date == d),
          (if x.date == b.date then b else x) = id x := by
        intro x hxf
        have hxd : x.date = d := beq_iff_eq.mp (List.mem_filter.mp hxf).2
        have hfalse : (x.date == b.date) = false := by
          rw [Bool.eq_false_iff]; intro hEq; exact hd (hxd ▸ beq_iff_eq.mp hEq)
        simp [hfalse]
      rw [List.map_congr_left hid, List.map_id]
  · have hnil : acc.filter (fun x => x.date == b.date) = [] :=
      List.filter_eq_nil_iff.mpr (fun a ha hab =>
        hpres (List.any_eq_true.mpr ⟨a, ha, hab⟩))
    unfold upsertBar
    rw [if_neg hpres]
    rw [List.filter_append]
    by_cases hd : d = b.date
    · subst hd
      simp [List.filter_cons, hnil]
    · have hbd : (b.date == d) = false := by
        rw [Bool.eq_false_iff]; intro hEq; exact hd (beq_iff_eq.mp hEq).symm
      simp [List.filter_cons, hbd, hd]

/-- Dedup preserves date distinctness of the accumulator throughout. -/
theorem foldl_upsertBar_nodup (l : List KLineData) :
    ∀ acc, (barDates acc).Nodup → (barDates (l.foldl upsertBar acc)).Nodup := by
  induction l with
  | nil => intro acc h; exact h
  | cons b l ih =>
    intro acc h
    rw [List.foldl_cons]
    exact ih _ (upsertBar_nodup acc b h)

/-- A date appears after dedup iff it appears in the accumulator or the
input. -/
theorem mem_barDates_foldl (l : List KLineData) :
    ∀ acc d, d ∈ barDates (l.foldl upsertBar acc) ↔
      d ∈ barDates acc ∨ d ∈ barDates l := by
  induction l with
  | nil => intro acc d; simp [barDates]
  | cons b l ih =>
    intro acc d
    rw [List.foldl_cons, ih, mem_barDates_upsertBar]
    simp only [barDates, List.map_cons, List.mem_cons]
    tauto

/-- Folding upserts computes the last occurrence per date: looking up any
date in the fold result equals looking it up in accumulator-then-input
order. -/
theorem lastWithDate_foldl (l : List KLineData) :
    ∀ acc, (barDates acc).Nodup →
      ∀ d, lastWithDate (l.foldl upsertBar acc) d = lastWithDate (acc ++ l) d := by
  induction l with
  | nil => intro acc _ d; rw [List.append_nil, List.foldl_nil]
  | cons b l ih =>
    intro acc h d
    rw [List.foldl_cons, ih _ (upsertBar_nodup acc b h) d]
    have h1 : lastWithDate (upsertBar acc b ++ l) d =
        (lastWithDate l d).or (lastWithDate (upsertBar acc b) d) := by
      unfold lastWithDate
      rw [List.filter_append, List.getLast?_append]
    have h2 : lastWithDate (acc ++ b :: l) d =
        (lastWithDate l d).or (lastWithDate (acc ++ [b]) d) := by
      unfold lastWithDate
      rw [show acc ++ b :: l = (acc ++ [b]) ++ l by simp]
      rw [List.filter_append, List.getLast?_append]
    have h3 : lastWithDate (upsertBar acc b) d = lastWithDate (acc ++ [b]) d := by
      unfold lastWithDate
      rw [upsertBar_filter acc b d h, List.filter_append]
      by_cases hd : d = b.date
      · subst hd
        simp [List.filter_cons]
      · have hbd : (b.date == d) = false := by
          rw [Bool.eq_false_iff]; intro hEq; exact hd (beq_iff_eq.mp hEq).symm
        simp [List.filter_cons, hbd, hd]
    rw [h1, h2, h3]

/-- C5: `deduplicateAndFilter` returns bars with pairwise-distinct dates;
every returned bar lies inclusively within the requested range and is the
last bar of its date in input order; and every distinct input date within
the range (including the exact bounds) is represented. -/
theorem deduplicateAndFilter_spec (l : List KLineData) (s e : Nat) :
    (barDates (deduplicateAndFilter l s e)).Nodup ∧
    (∀ b ∈ deduplicateAndFilter l s e,
      s ≤ b.date ∧ b.date ≤ e ∧ lastWithDate l b.date = some b) ∧
    (∀ d, d ∈ barDates l → s ≤ d → d ≤ e →
      ∃ b ∈ deduplicateAndFilter l s e, b.date = d) := by
  have hnil : (barDates ([] : List KLineData)).Nodup := by simp [barDates]
  have hnodupDedup : (barDates (dedupLast l)).Nodup :=
    foldl_upsertBar_nodup l [] hnil
  refine ⟨?_, ?_, ?_⟩
  · have hsub : List.Sublist (deduplicateAndFilter l s e) (dedupLast l) :=
      List.filter_sublist _
    exact hnodupDedup.sublist (hsub.map _)
  · intro b hb
    have hmem := List.mem_filter.mp hb
    have hrange := hmem.2
    simp only [Bool.and_eq_true, decide_eq_true_eq] at hrange
    have hlast : lastWithDate (dedupLast l) b.date = some b := by
      unfold lastWithDate
      rw [filter_eq_singleton_of_nodup (dedupLast l) b hnodupDedup hmem.1]
      rfl
    have hfold := lastWithDate_foldl l [] hnil b.date
    rw [List.nil_append] at hfold
    unfold dedupLast at hlast
    rw [hfold] at hlast
    exact ⟨hrange.1, hrange.2, hlast⟩
  · intro d hd hs he
    have hd' : d ∈ barDates (dedupLast l) :=
      (mem_barDates_foldl l [] d).mpr (Or.inr hd)
    obtain ⟨b, hb, hbd⟩ := List.mem_map.mp hd'
    refine ⟨b, ?_, hbd⟩
    apply List.mem_filter.mpr
    refine ⟨hb, ?_⟩
    simp [hbd, hs, he]

/-- C5 witness: input with a duplicate date 1 (last occurrence has
`openPrice` 5) and range `[1, 2]`; date 1 is represented in the output. -/
theorem deduplicateAndFilter_spec_witness :
    ∃ b ∈ deduplicateAndFilter
        [⟨1, 0, 0, 0, 0, 0⟩, ⟨2, 0, 0, 0, 0, 0⟩, ⟨1, 5, 5, 5, 5, 5⟩] 1 2,
      b.date = 1 :=
  (deduplicateAndFilter_spec
      [⟨1, 0, 0, 0, 0, 0⟩, ⟨2, 0, 0, 0, 0, 0⟩, ⟨1, 5, 5, 5, 5, 5⟩] 1 2).2.2
    1 (by decide) (by decide) (by decide)

/-- The loop issues its requests exactly along the given year list. -/
theorem runYears_years (oracle : Nat → Option (List KLineData)) (l : List Nat) :
    (runYears oracle l).1.map (fun r => r.varYear) = l := by
  induction l with
  | nil => rfl
  | cons y ys ih => simp [runYears, ih]

/-- Every issued request carries the full-year window
`{year}-01-01` … `{year+1}-12-31`. -/
theorem runYears_params (oracle : Nat → Option (List KLineData)) (l : List Nat) :
    ∀ r ∈ (runYears oracle l).1,
      r.startParam = (r.varYear, 1, 1) ∧ r.endParam = (r.varYear + 1, 12, 31) := by
  induction l with
  | nil =>
    intro r hr
    simp [runYears] at hr
  | cons y ys ih =>
    intro r hr
    simp only [runYears] at hr
    rcases List.mem_cons.mp hr with rfl | hmem
    · exact ⟨rfl, rfl⟩
    · exact ih r hmem

/-- If every consulted year fails, the loop accumulates nothing. -/
theorem runYears_all_fail (oracle : Nat → Option (List KLineData)) (l : List Nat)
    (h : ∀ y ∈ l, oracle y = none) : (runYears oracle l).2 = [] := by
  induction l with
  | nil => rfl
  | cons y ys ih =>
    simp only [runYears]
    rw [h y (List.mem_cons_self y ys)]
    exact ih (fun z hz => h z (List.mem_cons_of_mem y hz))

/-- C6: the daily fetch issues exactly one request per calendar year in
`[year(startDate), min(year(endDate), currentYear)]` inclusive, each over
the window `Y-01-01` … `(Y+1)-12-31`; a failing year is skipped while the
loop continues with the next year's request; and when every year fails the
call returns the empty list (the function is total — it never throws). -/
theorem fetchKLineFromQQDaily_spec (oracle : Nat → Option (List KLineData))
    (s e c sd ed : Nat) :
    (∀ y : Nat,
      ((runYears oracle (fetchYears s e c)).1.map (fun r => r.varYear)).count y =
        if s ≤ y ∧ y ≤ min e c then 1 else 0) ∧
    (∀ r ∈ (runYears oracle (fetchYears s e c)).1,
      r.startParam = (r.varYear, 1, 1) ∧ r.endParam = (r.varYear + 1, 12, 31)) ∧
    (∀ (y : Nat) (ys : List Nat), oracle y = none →
      (runYears oracle (y :: ys)).2 = (runYears oracle ys).2 ∧
      (runYears oracle (y :: ys)).1 =
        ⟨y, (y, 1, 1), (y + 1, 12, 31)⟩ :: (runYears oracle ys).1) ∧
    ((∀ y ∈ fetchYears s e c, oracle y = none) →
      fetchKLineFromQQDaily oracle s e c sd ed = []) := by
  refine ⟨?_, runYears_params oracle _, ?_, ?_⟩
  · intro y
    rw [runYears_years]
    unfold fetchYears
    by_cases hmem : y ∈ List.range' s (min e c + 1 - s)
    · have hcount := List.count_eq_one_of_mem (List.nodup_range' s _ 1 one_pos) hmem
      have hb := List.mem_range'_1.mp hmem
      rw [hcount, if_pos (by omega)]
    · have hcount := List.count_eq_zero_of_not_mem hmem
      rw [hcount, if_neg]
      intro hb
      exact hmem (List.mem_range'_1.mpr (by omega))
  · intro y ys h
    constructor <;> simp [runYears, h]
  · intro hall
    unfold fetchKLineFromQQDaily
    rw [runYears_all_fail oracle _ hall]
    rfl

/-- C6 witness: with every year's request failing, the fetch over
2024–2025 returns the empty list. -/
theorem fetchKLineFromQQDaily_spec_witness :
    fetchKLineFromQQDaily (fun _ => none) 2024 2025 2024 0 100 = [] :=
  (fetchKLineFromQQDaily_spec (fun _ => none) 2024 2025 2024 0 100).2.2.2
    (fun _ _ => rfl)

/-- `afterMarker` finds nothing exactly when the two-character marker
`=\x7b` occurs nowhere in the text. -/
theorem afterMarker_none_iff (cs : List Char) :
    afterMarker cs = none ↔ ∀ a b : List Char, cs ≠ a ++ eqChar :: lbraceChar :: b := by
  induction cs with
  | nil =>
    constructor
    · intro _ a b h
      have hlen := congrArg List.length h
      simp [List.length_append] at hlen
      omega
    · intro _
      rfl
  | cons c rest ih =>
    cases rest with
    | nil =>
      constructor
      · intro _ a b h
        have hlen := congrArg List.length h
        simp [List.length_append] at hlen
        omega
      · intro _
        rfl
    | cons c2 t =>
      have hstep : afterMarker (c :: c2 :: t) =
          if c = eqChar ∧ c2 = lbraceChar then some (c2 :: t)
          else afterMarker (c2 :: t) := rfl
      rw [hstep]
      by_cases hm : c = eqChar ∧ c2 = lbraceChar
      · rw [if_pos hm]
        constructor
        · intro h
          exact absurd h (by simp)
        · intro hforall
          exact ((hforall [] t) (by rw [hm.1, hm.2]; rfl)).elim
      · rw [if_neg hm, ih]
        constructor
        · intro h a b hEq
          cases a with
          | nil =>
            simp only [List.nil_append, List.cons.injEq] at hEq
            exact hm ⟨hEq.1, hEq.2.1⟩
          | cons a0 a' =>
            simp only [List.cons_append, List.cons.injEq] at hEq
            exact h a' b hEq.2
        · intro h a b hEq
          exact h (c :: a) b (by simp [hEq])

/-- C7: payload extraction fails (`MalformedPayload`, modelled `none`)
exactly when the `=\x7b` marker is absent; on `xyz={"a":1};` it yields the
JSON text `{"a":1}`; and the caller treats a failed chunk as a skip — the
year contributes nothing and the loop result is that of the remaining
years. -/
theorem extractPayload_spec :
    (∀ s : String, extractPayload s = none ↔
      ∀ a b : List Char, s.data ≠ a ++ eqChar :: lbraceChar :: b) ∧
    extractPayload "xyz=\x7b\x22a\x22:1\x7d;" = some "\x7b\x22a\x22:1\x7d" ∧
    extractPayload "no marker" = none ∧
    (∀ (oracle : Nat → Option (List KLineData)) (y : Nat) (ys : List Nat),
      oracle y = none →
      (runYears oracle (y :: ys)).2 = (runYears oracle ys).2) := by
  refine ⟨?_, by decide, by decide, ?_⟩
  · intro s
    unfold extractPayload
    rw [Option.map_eq_none']
    exact afterMarker_none_iff s.data
  · intro oracle y ys h
    simp [runYears, h]

/-- C7 witness: a failed chunk (year 3) is skipped without contribution. -/
theorem extractPayload_spec_witness :
    (runYears (fun _ => none) [3]).2 = (runYears (fun _ => none) []).2 :=
  extractPayload_spec.2.2.2 (fun _ => none) 3 [] rfl

/-- C1: failure isolation of the batch job.  Along any run of the worker
pool from an initial due-set of N items: dequeues-in-progress plus counters
always account for all N items; whenever the running flag has been reset
(which only the drain step does), `completed + failed = N`; and from any
running state a step exists — in particular a per-item failure merely
increments `failed` and the pool continues, never aborting the job. -/
theorem batch_failure_isolation {α : Type} (items : List α) (s : JobState α)
    (h : Relation.ReflTransGen JobStep (initJob items) s) :
    s.completed + s.failed + s.inFlight + s.pending.length = items.length ∧
    (s.isRunning = false → s.completed + s.failed = items.length) ∧
    (s.isRunning = true → ∃ t, JobStep s t) := by
  have key : s.completed + s.failed + s.inFlight + s.pending.length = items.length ∧
      (s.isRunning = false → s.pending = [] ∧ s.inFlight = 0) := by
    induction h with
    | refl =>
      refine ⟨by simp [initJob], ?_⟩
      intro hf
      simp [initJob] at hf
    | tail hst hstep ih =>
      cases hstep with
      | pop w rest b hpend hrun =>
        have h1 := ih.1
        rw [hpend] at h1
        simp only [List.length_cons] at h1
        refine ⟨by simp; omega, ?_⟩
        intro hf
        simp at hf
      | finishOk b n hn hrun =>
        have h1 := ih.1
        rw [hn] at h1
        refine ⟨by simp; omega, ?_⟩
        intro hf
        simp at hf
      | finishFail b n hn hrun =>
        have h1 := ih.1
        rw [hn] at h1
        refine ⟨by simp; omega, ?_⟩
        intro hf
        simp at hf
      | drain b hpend hin hrun =>
        have h1 := ih.1
        rw [hpend, hin] at h1
        simp only [List.length_nil] at h1
        exact ⟨by simp; omega, fun _ => ⟨rfl, rfl⟩⟩
  refine ⟨key.1, ?_, ?_⟩
  · intro hf
    obtain ⟨hp, hi⟩ := key.2 hf
    have h1 := key.1
    rw [hp, hi] at h1
    simpa using h1
  · intro hrun
    rcases hpend : s.pending with _ | ⟨w, rest⟩
    · rcases hin : s.inFlight with _ | n
      · exact ⟨_, JobStep.drain s hpend hin hrun⟩
      · exact ⟨_, JobStep.finishOk s n hin hrun⟩
    · exact ⟨_, JobStep.pop w rest s hpend hrun⟩

/-- C1 witness: the one-item job whose single fetch fails still drains with
`completed + failed = 1` and the flag reset. -/
theorem batch_failure_isolation_witness :
    (⟨[], 0, 0, 1, false⟩ : JobState Nat).completed +
        (⟨[], 0, 0, 1, false⟩ : JobState Nat).failed = [7].length :=
  (batch_failure_isolation [7] ⟨[], 0, 0, 1, false⟩
      (Relation.ReflTransGen.tail
        (Relation.ReflTransGen.tail
          (Relation.ReflTransGen.tail Relation.ReflTransGen.refl
            (JobStep.pop 7 [] (initJob [7]) rfl rfl))
          (JobStep.finishFail ⟨[], 1, 0, 0, true⟩ 0 rfl rfl))
        (JobStep.drain ⟨[], 0, 0, 1, true⟩ rfl rfl rfl))).2.1 rfl

/-- C8: with `forceUpdate` unset, an existing row whose refresh timestamp
is not before today's midnight is returned unchanged with `fromCache` and
no upstream fetch and no store write; in every case where the update test
fires, the call fetches and upserts a row carrying the fresh daily bars and
the new timestamp. -/
theorem getStockKLine_cache (symbol : String) (name : Option String)
    (stored : Option StockInfoRow) (st : StockInfoRow) (u todayDay nowMs : Nat)
    (fetched : List KLineData)
    (hst : stored = some st) (hu : st.updatedAt = some u)
    (hfresh : ¬ u < todayDay * dayMs) :
    getStockKLine symbol name false stored todayDay nowMs fetched
      = (⟨st, true⟩, some st, []) ∧
    (∀ stored' : Option StockInfoRow,
      singleNeedsUpdate false stored' todayDay = true →
      ((getStockKLine symbol name false stored' todayDay nowMs fetched).2.2 =
        [FetchEffect.fetchQQ symbol,
          match stored' with
          | some _ => FetchEffect.dbUpdate symbol
          | none => FetchEffect.dbInsert symbol] ∧
        ∃ row, (getStockKLine symbol name false stored' todayDay nowMs fetched).2.1
            = some row ∧ row.updatedAt = some nowMs ∧ row.daily = some fetched)) := by
  constructor
  · subst hst
    have hneeds : singleNeedsUpdate false (some st) todayDay = false := by
      simp only [singleNeedsUpdate, Bool.false_or, Option.isNone_some, hu]
      exact decide_eq_false hfresh
    simp [getStockKLine, hneeds]
  · intro stored' hneed
    cases stored' with
    | some st' =>
      simp only [getStockKLine]
      rw [if_pos hneed]
      exact ⟨rfl, _, rfl, rfl, rfl⟩
    | none =>
      exact ⟨rfl, _, rfl, rfl, rfl⟩

/-- C8 witness: a row refreshed at day 5's midnight queried on day 5 is a
pure cache hit. -/
theorem getStockKLine_cache_witness :
    getStockKLine "sz000001" none false
        (some ⟨"sz000001", "n", none, none, none, none, some (5 * dayMs), 0⟩)
        5 999 []
      = (⟨⟨"sz000001", "n", none, none, none, none, some (5 * dayMs), 0⟩, true⟩,
          some ⟨"sz000001", "n", none, none, none, none, some (5 * dayMs), 0⟩, []) :=
  (getStockKLine_cache "sz000001" none _
      ⟨"sz000001", "n", none, none, none, none, some (5 * dayMs), 0⟩
      (5 * dayMs) 5 999 [] rfl rfl (Nat.lt_irrefl (5 * dayMs))).1

/-- Every month has at least 28 days. -/
theorem daysInMonth_ge (y : Int) (m : Nat) : 28 ≤ daysInMonth y m := by
  unfold daysInMonth
  split
  · split <;> omega
  · split <;> omega

/-- December always has 31 days. -/
theorem daysInMonth_twelve (y : Int) : daysInMonth y 12 = 31 := by
  unfold daysInMonth
  norm_num

/-- Stepping backward rotates the weekday by −1 (mod 7). -/
theorem prevDay_dow (d : CalDate) : (prevDay d).dow = (d.dow + 6) % 7 := by
  unfold prevDay
  split
  · rfl
  · split <;> rfl

/-- Stepping forward rotates the weekday by +1 (mod 7). -/
theorem nextDay_dow (d : CalDate) : (nextDay d).dow = (d.dow + 1) % 7 := by
  unfold nextDay
  split
  · rfl
  · split <;> rfl

/-- Stepping backward preserves validity. -/
theorem prevDay_valid (d : CalDate) (hv : ValidDate d) : ValidDate (prevDay d) := by
  obtain ⟨hm1, hm2, hd1, hd2, hw⟩ := hv
  unfold prevDay ValidDate
  by_cases h1 : 1 < d.day
  · rw [if_pos h1]
    dsimp only
    exact ⟨hm1, hm2, by omega, by omega, Nat.mod_lt _ (by omega)⟩
  · rw [if_neg h1]
    by_cases h2 : 1 < d.month
    · rw [if_pos h2]
      dsimp only
      have h28 := daysInMonth_ge d.year (d.month - 1)
      exact ⟨by omega, by omega, by omega, le_refl _, Nat.mod_lt _ (by omega)⟩
    · rw [if_neg h2]
      dsimp only
      refine ⟨by omega, by omega, by omega, ?_, Nat.mod_lt _ (by omega)⟩
      rw [daysInMonth_twelve]

/-- Stepping forward preserves validity. -/
theorem nextDay_valid (d : CalDate) (hv : ValidDate d) : ValidDate (nextDay d) := by
  obtain ⟨hm1, hm2, hd1, hd2, hw⟩ := hv
  unfold nextDay ValidDate
  by_cases h1 : d.day < daysInMonth d.year d.month
  · rw [if_pos h1]
    dsimp only
    exact ⟨hm1, hm2, by omega, by omega, Nat.mod_lt _ (by omega)⟩
  · rw [if_neg h1]
    by_cases h2 : d.month < 12
    · rw [if_pos h2]
      dsimp only
      have h28 := daysInMonth_ge d.year (d.month + 1)
      exact ⟨by omega, by omega, by omega, by omega, Nat.mod_lt _ (by omega)⟩
    · rw [if_neg h2]
      dsimp only
      have h28 := daysInMonth_ge (d.year + 1) 1
      exact ⟨by omega, by omega, by omega, by omega, Nat.mod_lt _ (by omega)⟩

/-- Stepping backward moves strictly earlier. -/
theorem prevDay_lt (d : CalDate) (hv : ValidDate d) : calLt (prevDay d) d := by
  obtain ⟨hm1, hm2, hd1, hd2, hw⟩ := hv
  unfold prevDay calLt
  by_cases h1 : 1 < d.day
  · rw [if_pos h1]
    dsimp only
    omega
  · rw [if_neg h1]
    by_cases h2 : 1 < d.month
    · rw [if_pos h2]
      dsimp only
      omega
    · rw [if_neg h2]
      dsimp only
      omega

/-- Stepping forward moves strictly later. -/
theorem nextDay_gt (d : CalDate) (hv : ValidDate d) : calLt d (nextDay d) := by
  obtain ⟨hm1, hm2, hd1, hd2, hw⟩ := hv
  unfold nextDay calLt
  by_cases h1 : d.day < daysInMonth d.year d.month
  · rw [if_pos h1]
    dsimp only
    omega
  · rw [if_neg h1]
    by_cases h2 : d.month < 12
    · rw [if_pos h2]
      dsimp only
      omega
    · rw [if_neg h2]
      dsimp only
      omega

/-- Chronological order is transitive. -/
theorem calLt_trans (a b c : CalDate) (h1 : calLt a b) (h2 : calLt b c) :
    calLt a c := by
  unfold calLt at h1 h2 ⊢
  omega

/-- The day before the first of a month is the 28th or later. -/
theorem prevDay_first_day (d : CalDate) (hv : ValidDate d) (h1 : d.day = 1) :
    28 ≤ (prevDay d).day := by
  obtain ⟨hm1, hm2, hd1, hd2, hw⟩ := hv
  unfold prevDay
  rw [if_neg (by omega)]
  by_cases h2 : 1 < d.month
  · rw [if_pos h2]
    exact daysInMonth_ge d.year (d.month - 1)
  · rw [if_neg h2]
    show (28 : Nat) ≤ 31
    omega

/-- Within a month, stepping backward just decrements the day. -/
theorem prevDay_day_sub (d : CalDate) (h : 1 < d.day) :
    (prevDay d).day = d.day - 1 := by
  unfold prevDay
  rw [if_pos h]

/-- Within a month, stepping forward increments day, month, year fixed. -/
theorem nextDay_day_succ (d : CalDate) (h : d.day < daysInMonth d.year d.month) :
    nextDay d = ⟨d.year, d.month, d.day + 1, (d.dow + 1) % 7⟩ := by
  unfold nextDay
  rw [if_pos h]

/-- No day-of-month 1 occurs within three backward steps of a
day-of-month 1 — the fixed holidays are isolated going backward. -/
theorem fixed_gap_prev (d : CalDate) (hv : ValidDate d) (h1 : d.day = 1) :
    (prevDay d).day ≠ 1 ∧ (prevDay (prevDay d)).day ≠ 1 ∧
      (prevDay (prevDay (prevDay d))).day ≠ 1 := by
  have g1 : 28 ≤ (prevDay d).day := prevDay_first_day d hv h1
  have g2 : (prevDay (prevDay d)).day = (prevDay d).day - 1 :=
    prevDay_day_sub _ (by omega)
  have g3 : (prevDay (prevDay (prevDay d))).day = (prevDay (prevDay d)).day - 1 :=
    prevDay_day_sub _ (by omega)
  exact ⟨by omega, by omega, by omega⟩

/-- No day-of-month 1 occurs within three forward steps of a
day-of-month 1 — the fixed holidays are isolated going forward. -/
theorem fixed_gap_next (d : CalDate) (hv : ValidDate d) (h1 : d.day = 1) :
    (nextDay d).day ≠ 1 ∧ (nextDay (nextDay d)).day ≠ 1 ∧
      (nextDay (nextDay (nextDay d))).day ≠ 1 := by
  obtain ⟨hm1, hm2, hd1, hd2, hw⟩ := hv
  have dim := daysInMonth_ge d.year d.month
  have e1 := nextDay_day_succ d (by omega)
  have p1d : (nextDay d).day = d.day + 1 := by rw [e1]
  have p1m : (nextDay d).month = d.month := by rw [e1]
  have p1y : (nextDay d).year = d.year := by rw [e1]
  have e2 := nextDay_day_succ (nextDay d) (by rw [p1d, p1m, p1y]; omega)
  have p2d : (nextDay (nextDay d)).day = (nextDay d).day + 1 := by rw [e2]
  have p2m : (nextDay (nextDay d)).month = (nextDay d).month := by rw [e2]
  have p2y : (nextDay (nextDay d)).year = (nextDay d).year := by rw [e2]
  have e3 := nextDay_day_succ (nextDay (nextDay d))
    (by rw [p2d, p2m, p2y, p1d, p1m, p1y]; omega)
  have p3d : (nextDay (nextDay (nextDay d))).day = (nextDay (nextDay d)).day + 1 := by
    rw [e3]
  exact ⟨by omega, by omega, by omega⟩

/-- C9 part (a), as a lemma: the holiday test holds exactly on weekends and
the three fixed dates. -/
theorem isHoliday_iff (d : CalDate) :
    isHoliday d = true ↔
      (d.dow = 0 ∨ d.dow = 6 ∨ (d.month = 1 ∧ d.day = 1) ∨
        (d.month = 5 ∧ d.day = 1) ∨ (d.month = 10 ∧ d.day = 1)) := by
  simp [isHoliday, Bool.or_eq_true, Bool.and_eq_true, beq_iff_eq, or_assoc]

/-- Among any four consecutive days (going backward) at least one is a
trading day: at most two of four consecutive weekdays are weekend, and the
fixed holidays are more than three days apart. -/
theorem not_all_four_prev (d : CalDate) (hv : ValidDate d) :
    ¬(isHoliday d = true ∧ isHoliday (prevDay d) = true ∧
      isHoliday (prevDay (prevDay d)) = true ∧
      isHoliday (prevDay (prevDay (prevDay d))) = true) := by
  rintro ⟨h0, h1, h2, h3⟩
  have hv1 := prevDay_valid d hv
  have hv2 := prevDay_valid _ hv1
  have hd1 : (prevDay d).dow = (d.dow + 6) % 7 := prevDay_dow d
  have hd2 : (prevDay (prevDay d)).dow = (d.dow + 12) % 7 := by
    rw [prevDay_dow, hd1]; omega
  have hd3 : (prevDay (prevDay (prevDay d))).dow = (d.dow + 18) % 7 := by
    rw [prevDay_dow, hd2]; omega
  have hr : d.dow < 7 := hv.2.2.2.2
  have getDay1 : ∀ x : CalDate, isHoliday x = true → ¬(x.dow = 0 ∨ x.dow = 6) →
      x.day = 1 := by
    intro x hx hnw
    rcases (isHoliday_iff x).mp hx with h | h | h | h | h
    · exact absurd (Or.inl h) hnw
    · exact absurd (Or.inr h) hnw
    · exact h.2
    · exact h.2
    · exact h.2
  have pairs : ∀ r : Nat, r < 7 →
      (¬(r = 0 ∨ r = 6) ∧ ¬((r + 6) % 7 = 0 ∨ (r + 6) % 7 = 6)) ∨
      (¬(r = 0 ∨ r = 6) ∧ ¬((r + 12) % 7 = 0 ∨ (r + 12) % 7 = 6)) ∨
      (¬(r = 0 ∨ r = 6) ∧ ¬((r + 18) % 7 = 0 ∨ (r + 18) % 7 = 6)) ∨
      (¬((r + 6) % 7 = 0 ∨ (r + 6) % 7 = 6) ∧ ¬((r + 12) % 7 = 0 ∨ (r + 12) % 7 = 6)) ∨
      (¬((r + 6) % 7 = 0 ∨ (r + 6) % 7 = 6) ∧ ¬((r + 18) % 7 = 0 ∨ (r + 18) % 7 = 6)) ∨
      (¬((r + 12) % 7 = 0 ∨ (r + 12) % 7 = 6) ∧
        ¬((r + 18) % 7 = 0 ∨ (r + 18) % 7 = 6)) := by
    decide
  rcases pairs d.dow hr with ⟨hi, hj⟩ | ⟨hi, hj⟩ | ⟨hi, hj⟩ | ⟨hi, hj⟩ | ⟨hi, hj⟩ | ⟨hi, hj⟩
  · have f0 := getDay1 d h0 hi
    have f1 := getDay1 (prevDay d) h1 (by rw [hd1]; exact hj)
    exact (fixed_gap_prev d hv f0).1 f1
  · have f0 := getDay1 d h0 hi
    have f2 := getDay1 (prevDay (prevDay d)) h2 (by rw [hd2]; exact hj)
    exact (fixed_gap_prev d hv f0).2.1 f2
  · have f0 := getDay1 d h0 hi
    have f3 := getDay1 (prevDay (prevDay (prevDay d))) h3 (by rw [hd3]; exact hj)
    exact (fixed_gap_prev d hv f0).2.2 f3
  · have f1 := getDay1 (prevDay d) h1 (by rw [hd1]; exact hi)
    have f2 := getDay1 (prevDay (prevDay d)) h2 (by rw [hd2]; exact hj)
    exact (fixed_gap_prev (prevDay d) hv1 f1).1 f2
  · have f1 := getDay1 (prevDay d) h1 (by rw [hd1]; exact hi)
    have f3 := getDay1 (prevDay (prevDay (prevDay d))) h3 (by rw [hd3]; exact hj)
    exact (fixed_gap_prev (prevDay d) hv1 f1).2.1 f3
  · have f2 := getDay1 (prevDay (prevDay d)) h2 (by rw [hd2]; exact hi)
    have f3 := getDay1 (prevDay (prevDay (prevDay d))) h3 (by rw [hd3]; exact hj)
    exact (fixed_gap_prev (prevDay (prevDay d)) hv2 f2).1 f3

/-- Among any four consecutive days (going forward) at least one is a
trading day. -/
theorem not_all_four_next (d : CalDate) (hv : ValidDate d) :
    ¬(isHoliday d = true ∧ isHoliday (nextDay d) = true ∧
      isHoliday (nextDay (nextDay d)) = true ∧
      isHoliday (nextDay (nextDay (nextDay d))) = true) := by
  rintro ⟨h0, h1, h2, h3⟩
  have hv1 := nextDay_valid d hv
  have hv2 := nextDay_valid _ hv1
  have hd1 : (nextDay d).dow = (d.dow + 1) % 7 := nextDay_dow d
  have hd2 : (nextDay (nextDay d)).dow = (d.dow + 2) % 7 := by
    rw [nextDay_dow, hd1]; omega
  have hd3 : (nextDay (nextDay (nextDay d))).dow = (d.dow + 3) % 7 := by
    rw [nextDay_dow, hd2]; omega
  have hr : d.dow < 7 := hv.2.2.2.2
  have getDay1 : ∀ x : CalDate, isHoliday x = true → ¬(x.dow = 0 ∨ x.dow = 6) →
      x.day = 1 := by
    intro x hx hnw
    rcases (isHoliday_iff x).mp hx with h | h | h | h | h
    · exact absurd (Or.inl h) hnw
    · exact absurd (Or.inr h) hnw
    · exact h.2
    · exact h.2
    · exact h.2
  have pairs : ∀ r : Nat, r < 7 →
      (¬(r = 0 ∨ r = 6) ∧ ¬((r + 1) % 7 = 0 ∨ (r + 1) % 7 = 6)) ∨
      (¬(r = 0 ∨ r = 6) ∧ ¬((r + 2) % 7 = 0 ∨ (r + 2) % 7 = 6)) ∨
      (¬(r = 0 ∨ r = 6) ∧ ¬((r + 3) % 7 = 0 ∨ (r + 3) % 7 = 6)) ∨
      (¬((r + 1) % 7 = 0 ∨ (r + 1) % 7 = 6) ∧ ¬((r + 2) % 7 = 0 ∨ (r + 2) % 7 = 6)) ∨
      (¬((r + 1) % 7 = 0 ∨ (r + 1) % 7 = 6) ∧ ¬((r + 3) % 7 = 0 ∨ (r + 3) % 7 = 6)) ∨
      (¬((r + 2) % 7 = 0 ∨ (r + 2) % 7 = 6) ∧
        ¬((r + 3) % 7 = 0 ∨ (r + 3) % 7 = 6)) := by
    decide
  rcases pairs d.dow hr with ⟨hi, hj⟩ | ⟨hi, hj⟩ | ⟨hi, hj⟩ | ⟨hi, hj⟩ | ⟨hi, hj⟩ | ⟨hi, hj⟩
  · have f0 := getDay1 d h0 hi
    have f1 := getDay1 (nextDay d) h1 (by rw [hd1]; exact hj)
    exact (fixed_gap_next d hv f0).1 f1
  · have f0 := getDay1 d h0 hi
    have f2 := getDay1 (nextDay (nextDay d)) h2 (by rw [hd2]; exact hj)
    exact (fixed_gap_next d hv f0).2.1 f2
  · have f0 := getDay1 d h0 hi
    have f3 := getDay1 (nextDay (nextDay (nextDay d))) h3 (by rw [hd3]; exact hj)
    exact (fixed_gap_next d hv f0).2.2 f3
  · have f1 := getDay1 (nextDay d) h1 (by rw [hd1]; exact hi)
    have f2 := getDay1 (nextDay (nextDay d)) h2 (by rw [hd2]; exact hj)
    exact (fixed_gap_next (nextDay d) hv1 f1).1 f2
  · have f1 := getDay1 (nextDay d) h1 (by rw [hd1]; exact hi)
    have f3 := getDay1 (nextDay (nextDay (nextDay d))) h3 (by rw [hd3]; exact hj)
    exact (fixed_gap_next (nextDay d) hv1 f1).2.1 f3
  · have f2 := getDay1 (nextDay (nextDay d)) h2 (by rw [hd2]; exact hi)
    have f3 := getDay1 (nextDay (nextDay (nextDay d))) h3 (by rw [hd3]; exact hj)
    exact (fixed_gap_next (nextDay (nextDay d)) hv2 f2).1 f3

/-- The while-loop does nothing on a trading day. -/
theorem skip_stay (f : Nat) (step : CalDate → CalDate) (d : CalDate)
    (h : isHoliday d = false) : skipHolidays f step d = d := by
  cases f with
  | zero => rfl
  | succ f =>
    unfold skipHolidays
    rw [if_neg (by simp [h])]

/-- With three spare iterations of fuel, the backward skip loop always
lands on a trading day: the fuel bound is never the reason it stops. -/
theorem skipPrev_not_holiday (n : Nat) (d : CalDate) (hv : ValidDate d) :
    isHoliday (skipHolidays (n + 3) prevDay d) = false := by
  by_cases h0 : isHoliday d = true
  · have e0 : skipHolidays (n + 3) prevDay d =
        skipHolidays (n + 2) prevDay (prevDay d) := by
      show (if isHoliday d then skipHolidays (n + 2) prevDay (prevDay d) else d) = _
      rw [if_pos h0]
    rw [e0]
    by_cases h1 : isHoliday (prevDay d) = true
    · have e1 : skipHolidays (n + 2) prevDay (prevDay d) =
          skipHolidays (n + 1) prevDay (prevDay (prevDay d)) := by
        show (if isHoliday (prevDay d) then
            skipHolidays (n + 1) prevDay (prevDay (prevDay d)) else prevDay d) = _
        rw [if_pos h1]
      rw [e1]
      by_cases h2 : isHoliday (prevDay (prevDay d)) = true
      · have e2 : skipHolidays (n + 1) prevDay (prevDay (prevDay d)) =
            skipHolidays n prevDay (prevDay (prevDay (prevDay d))) := by
          show (if isHoliday (prevDay (prevDay d)) then
              skipHolidays n prevDay (prevDay (prevDay (prevDay d)))
            else prevDay (prevDay d)) = _
          rw [if_pos h2]
        rw [e2]
        have h3 : isHoliday (prevDay (prevDay (prevDay d))) = false := by
          rcases hx : isHoliday (prevDay (prevDay (prevDay d))) with _ | _
          · rfl
          · exact absurd ⟨h0, h1, h2, hx⟩ (not_all_four_prev d hv)
        rw [skip_stay n prevDay _ h3]
        exact h3
      · rw [Bool.not_eq_true] at h2
        rw [skip_stay _ _ _ h2]
        exact h2
    · rw [Bool.not_eq_true] at h1
      rw [skip_stay _ _ _ h1]
      exact h1
  · rw [Bool.not_eq_true] at h0
    rw [skip_stay _ _ _ h0]
    exact h0

/-- With three spare iterations of fuel, the forward skip loop always lands
on a trading day. -/
theorem skipNext_not_holiday (n : Nat) (d : CalDate) (hv : ValidDate d) :
    isHoliday (skipHolidays (n + 3) nextDay d) = false := by
  by_cases h0 : isHoliday d = true
  · have e0 : skipHolidays (n + 3) nextDay d =
        skipHolidays (n + 2) nextDay (nextDay d) := by
      show (if isHoliday d then skipHolidays (n + 2) nextDay (nextDay d) else d) = _
      rw [if_pos h0]
    rw [e0]
    by_cases h1 : isHoliday (nextDay d) = true
    · have e1 : skipHolidays (n + 2) nextDay (nextDay d) =
          skipHolidays (n + 1) nextDay (nextDay (nextDay d)) := by
        show (if isHoliday (nextDay d) then
            skipHolidays (n + 1) nextDay (nextDay (nextDay d)) else nextDay d) = _
        rw [if_pos h1]
      rw [e1]
      by_cases h2 : isHoliday (nextDay (nextDay d)) = true
      · have e2 : skipHolidays (n + 1) nextDay (nextDay (nextDay d)) =
            skipHolidays n nextDay (nextDay (nextDay (nextDay d))) := by
          show (if isHoliday (nextDay (nextDay d)) then
              skipHolidays n nextDay (nextDay (nextDay (nextDay d)))
            else nextDay (nextDay d)) = _
          rw [if_pos h2]
        rw [e2]
        have h3 : isHoliday (nextDay (nextDay (nextDay d))) = false := by
          rcases hx : isHoliday (nextDay (nextDay (nextDay d))) with _ | _
          · rfl
          · exact absurd ⟨h0, h1, h2, hx⟩ (not_all_four_next d hv)
        rw [skip_stay n nextDay _ h3]
        exact h3
      · rw [Bool.not_eq_true] at h2
        rw [skip_stay _ _ _ h2]
        exact h2
    · rw [Bool.not_eq_true] at h1
      rw [skip_stay _ _ _ h1]
      exact h1
  · rw [Bool.not_eq_true] at h0
    rw [skip_stay _ _ _ h0]
    exact h0

/-- The backward skip loop only moves backward (or stays put), staying on
valid dates. -/
theorem skipPrev_le (f : Nat) :
    ∀ d : CalDate, ValidDate d →
      skipHolidays f prevDay d = d ∨
        (calLt (skipHolidays f prevDay d) d ∧
          ValidDate (skipHolidays f prevDay d)) := by
  induction f with
  | zero => intro d _; exact Or.inl rfl
  | succ f ih =>
    intro d hv
    by_cases h : isHoliday d = true
    · have e : skipHolidays (f + 1) prevDay d = skipHolidays f prevDay (prevDay d) := by
        show (if isHoliday d then skipHolidays f prevDay (prevDay d) else d) = _
        rw [if_pos h]
      rw [e]
      rcases ih (prevDay d) (prevDay_valid d hv) with heq | ⟨hlt, hval⟩
      · rw [heq]
        exact Or.inr ⟨prevDay_lt d hv, prevDay_valid d hv⟩
      · exact Or.inr ⟨calLt_trans _ _ _ hlt (prevDay_lt d hv), hval⟩
    · rw [Bool.not_eq_true] at h
      rw [skip_stay _ _ _ h]
      exact Or.inl rfl

/-- The forward skip loop only moves forward (or stays put), staying on
valid dates. -/
theorem skipNext_ge (f : Nat) :
    ∀ d : CalDate, ValidDate d →
      skipHolidays f nextDay d = d ∨
        (calLt d (skipHolidays f nextDay d) ∧
          ValidDate (skipHolidays f nextDay d)) := by
  induction f with
  | zero => intro d _; exact Or.inl rfl
  | succ f ih =>
    intro d hv
    by_cases h : isHoliday d = true
    · have e : skipHolidays (f + 1) nextDay d = skipHolidays f nextDay (nextDay d) := by
        show (if isHoliday d then skipHolidays f nextDay (nextDay d) else d) = _
        rw [if_pos h]
      rw [e]
      rcases ih (nextDay d) (nextDay_valid d hv) with heq | ⟨hlt, hval⟩
      · rw [heq]
        exact Or.inr ⟨nextDay_gt d hv, nextDay_valid d hv⟩
      · exact Or.inr ⟨calLt_trans _ _ _ (nextDay_gt d hv) hlt, hval⟩
    · rw [Bool.not_eq_true] at h
      rw [skip_stay _ _ _ h]
      exact Or.inl rfl

/-- C9: `isHoliday` is true exactly on Saturdays, Sundays, Jan 1, May 1 and
Oct 1; and on every valid date, `getPrevTradingDay` / `getNextTradingDay`
return a trading day strictly before / strictly after the input. -/
theorem tradingCalendar_spec :
    (∀ d : CalDate, isHoliday d = true ↔
      (d.dow = 0 ∨ d.dow = 6 ∨ (d.month = 1 ∧ d.day = 1) ∨
        (d.month = 5 ∧ d.day = 1) ∨ (d.month = 10 ∧ d.day = 1))) ∧
    (∀ d : CalDate, ValidDate d →
      isHoliday (getPrevTradingDay d) = false ∧ calLt (getPrevTradingDay d) d) ∧
    (∀ d : CalDate, ValidDate d →
      isHoliday (getNextTradingDay d) = false ∧ calLt d (getNextTradingDay d)) := by
  refine ⟨isHoliday_iff, ?_, ?_⟩
  · intro d hv
    have hv' := prevDay_valid d hv
    constructor
    · have h1000 : (1000 : Nat) = 997 + 3 := rfl
      unfold getPrevTradingDay
      rw [h1000]
      exact skipPrev_not_holiday 997 (prevDay d) hv'
    · unfold getPrevTradingDay
      rcases skipPrev_le 1000 (prevDay d) hv' with heq | ⟨hlt, _⟩
      · rw [heq]
        exact prevDay_lt d hv
      · exact calLt_trans _ _ _ hlt (prevDay_lt d hv)
  · intro d hv
    have hv' := nextDay_valid d hv
    constructor
    · have h1000 : (1000 : Nat) = 997 + 3 := rfl
      unfold getNextTradingDay
      rw [h1000]
      exact skipNext_not_holiday 997 (nextDay d) hv'
    · unfold getNextTradingDay
      rcases skipNext_ge 1000 (nextDay d) hv' with heq | ⟨hlt, _⟩
      · rw [heq]
        exact nextDay_gt d hv
      · exact calLt_trans _ _ _ (nextDay_gt d hv) hlt

/-- C9 witness at Monday 2024-06-03 (dow 1), a valid trading day. -/
theorem tradingCalendar_spec_witness :
    (isHoliday (getPrevTradingDay ⟨2024, 6, 3, 1⟩) = false ∧
      calLt (getPrevTradingDay ⟨2024, 6, 3, 1⟩) ⟨2024, 6, 3, 1⟩) ∧
    (isHoliday (getNextTradingDay ⟨2024, 6, 3, 1⟩) = false ∧
      calLt ⟨2024, 6, 3, 1⟩ (getNextTradingDay ⟨2024, 6, 3, 1⟩)) :=
  ⟨tradingCalendar_spec.2.1 ⟨2024, 6, 3, 1⟩ (by decide),
    tradingCalendar_spec.2.2 ⟨2024, 6, 3, 1⟩ (by decide)⟩
